import Mathlib

/-!
# Verification of the tadpoles column-derivation engine

Shallow embedding of the tadpoles library (schema-level semantics of the
polars-backed derivation engine): `field.py` (Field, candidate binding and
selection), `transform.py` (fixed-point derivation loop, reconciling append,
normalize), `model.py` (field inheritance) and `main.py`
(`TadpoleBase.derive`, empty-input special case).

Datasets are modelled at schema level: an ordered association list of
column name to data type, together with a row count.  Expressions are
modelled as trees exposing exactly the structure the engine inspects:
root column names, casts, `fill_null` wrapping, aliases and literals.
-/

namespace Tadpoles

/-- Python literal values that can appear as a `Field` default. -/
inductive PyVal where
  | none : PyVal
  | int : Int → PyVal
  | str : String → PyVal
  | bool : Bool → PyVal
deriving DecidableEq, Repr

/-- Python truthiness of a default value (`if not self.default`). -/
def PyVal.truthy : PyVal → Bool
  | .none => false
  | .int z => z != 0
  | .str s => s != ""
  | .bool b => b

mutual
/-- Polars data types at schema level: scalars (by name), structs and lists. -/
inductive DType where
  | scalar : String → DType
  | list : DType → DType
  | struct : FieldsT → DType
deriving DecidableEq, Repr

/-- The named fields of a struct data type. -/
inductive FieldsT where
  | nil : FieldsT
  | cons : String → DType → FieldsT → FieldsT
deriving DecidableEq, Repr
end

/-- `True` for struct-typed columns (`isinstance(schema[name], pl.Struct)`). -/
def DType.isStruct : DType → Bool
  | .struct _ => true
  | _ => false

/-- `True` for list-typed columns (`isinstance(schema[name], pl.List)`). -/
def DType.isList : DType → Bool
  | .list _ => true
  | _ => false

/-- Polars expressions, at the granularity the engine inspects. -/
inductive Expr where
  | col : String → Expr
  | lit : PyVal → Expr
  | cast : Expr → DType → Expr
  | fillNull : Expr → PyVal → Expr
  | alias : Expr → String → Expr
  | bin : String → Expr → Expr → Expr
deriving DecidableEq, Repr

/-- `expr.meta.root_names()`: the source column names an expression reads. -/
def Expr.rootNames : Expr → List String
  | .col n => [n]
  | .lit _ => []
  | .cast e _ => e.rootNames
  | .fillNull e _ => e.rootNames
  | .alias e _ => e.rootNames
  | .bin _ a b => a.rootNames ++ b.rootNames

/-- Structural renaming of every root column named `old` to `new`
(the effect of the serialize/replace/deserialize round-trip). -/
def Expr.renameRoot : Expr → String → String → Expr
  | .col n, old, new => .col (if n = old then new else n)
  | .lit v, _, _ => .lit v
  | .cast e t, old, new => .cast (e.renameRoot old new) t
  | .fillNull e v, old, new => .fillNull (e.renameRoot old new) v
  | .alias e n, old, new => .alias (e.renameRoot old new) n
  | .bin f a b, old, new => .bin f (a.renameRoot old new) (b.renameRoot old new)

/-- The placeholder root name used by the `tadpoles.field` object. -/
def PLACEHOLDER : String := "__field__"

/-- `field.root_replace`: rewrite the placeholder root to the actual name,
only when the placeholder actually occurs among the roots. -/
def root_replace (e : Expr) (toReplace newRoot : String) : Expr :=
  if toReplace ∈ e.rootNames then e.renameRoot toReplace newRoot else e

/-- A value handed to `Field(...)`: either a polars expression or a plain
Python value (which becomes the default). -/
inductive FieldValue where
  | expr : Expr → FieldValue
  | val : PyVal → FieldValue
deriving DecidableEq, Repr

/-- `field.Field`: one target output column. -/
structure Field where
  name : String
  primaryKey : Bool
  dtype : DType
  default : PyVal
  values : List FieldValue
  exprs : List Expr
  derived : Bool
  prepared : Bool
deriving DecidableEq, Repr

/-- `Field.literal`: `pl.lit(self.default).cast(self.dtype)`. -/
def Field.literal (f : Field) : Expr :=
  .cast (.lit f.default) f.dtype

/-- `Field.value_expr`: build the bound candidate expression for one value.
A non-expression value overwrites the field's default with itself; the
result is cast to the declared dtype and wrapped in `fill_null(default)`
exactly when the (possibly just overwritten) default is truthy. -/
def Field.value_expr (f : Field) (v : FieldValue) : Field × Expr :=
  match v with
  | .expr e =>
      let e1 := root_replace e PLACEHOLDER f.name
      let e2 := Expr.cast e1 f.dtype
      (f, if f.default.truthy then e2.fillNull f.default else e2)
  | .val d =>
      let f' := { f with default := d }
      let e2 := Expr.cast (.col f.name) f.dtype
      (f', if d.truthy then e2.fillNull d else e2)

/-- The loop body of `Field.prepare`, threading the field (whose default a
plain value may overwrite) while accumulating bound expressions. -/
def prepareVals (f : Field) : List FieldValue → Field × List Expr
  | [] => (f, [])
  | v :: vs =>
      let (f', e) := f.value_expr v
      let (f'', es) := prepareVals f' vs
      (f'', e :: es)

/-- `Field.prepare`: fails when the field has no name, else binds every
value to an expression (in order) and marks the field prepared. -/
def Field.prepare (f : Field) : Except String Field :=
  if f.name = "" then .error "Column must have name"
  else
    let (f', es) := prepareVals { f with exprs := [] } f.values
    .ok { f' with exprs := es, prepared := true }

/-- A candidate is satisfiable when all its roots are present. -/
def satisfiable (e : Expr) (names : List String) : Bool :=
  e.rootNames.all (fun s => names.contains s)

/-- `Field.get_expr`: the first candidate whose full root set is a subset of
the current schema; selecting one marks the field derived. -/
def Field.get_expr (f : Field) (names : List String) : Field × Option (String × Expr) :=
  match f.exprs.find? (fun e => satisfiable e names) with
  | some e => ({ f with derived := true }, some (f.name, e))
  | Option.none => (f, Option.none)

/-! ## Datasets (LazyFrames) at schema level -/

/-- A schema: ordered association of column name to data type. -/
abbrev Schema := List (String × DType)

/-- A LazyFrame, abstracted to its schema and its row count. -/
structure LF where
  schema : Schema
  rows : Nat
deriving DecidableEq, Repr

/-- The column names of a LazyFrame, in schema order. -/
def LF.columns (lf : LF) : List String := lf.schema.map Prod.fst

/-- The declared type of a column (first occurrence; `Unknown` if absent). -/
def schemaType (s : Schema) (nm : String) : DType :=
  match s.find? (fun p => p.1 = nm) with
  | some p => p.2
  | Option.none => .scalar "Unknown"

/-- The declared type of a column of a LazyFrame. -/
def LF.typeOf (lf : LF) (nm : String) : DType := schemaType lf.schema nm

/-- The output type of an expression given the schema it runs against. -/
def exprType (s : Schema) : Expr → DType
  | .col n => schemaType s n
  | .lit v =>
      match v with
      | .none => .scalar "Null"
      | .int _ => .scalar "Int64"
      | .str _ => .scalar "String"
      | .bool _ => .scalar "Boolean"
  | .cast _ t => t
  | .fillNull e _ => exprType s e
  | .alias e _ => exprType s e
  | .bin _ _ _ => .scalar "Unknown"

/-- Add or overwrite one column of a schema: an existing name keeps its
position (its type is replaced), a new name is appended at the end. -/
def upsertCol (s : Schema) (nm : String) (t : DType) : Schema :=
  if s.any (fun p => p.1 = nm) then
    s.map (fun p => if p.1 = nm then (nm, t) else p)
  else s ++ [(nm, t)]

/-- `with_columns`: apply a batch of named expressions, keeping the row
count; every output column's type is the type of its expression against
the schema as it stood before the batch. -/
def LF.withColumns (lf : LF) (batch : List (String × Expr)) : LF :=
  { schema := batch.foldl (fun acc p => upsertCol acc p.1 (exprType lf.schema p.2)) lf.schema
    rows := lf.rows }

/-- `select`: project to exactly the given columns, in the given order. -/
def LF.select (lf : LF) (names : List String) : LF :=
  { schema := names.map (fun nm => (nm, lf.typeOf nm)), rows := lf.rows }

/-- Lexicographic (code-point) comparison of character lists, the order
Python's `sorted` applies to strings. -/
def leChars : List Char → List Char → Bool
  | [], _ => true
  | _ :: _, [] => false
  | c1 :: t1, c2 :: t2 =>
      if c1.toNat < c2.toNat then true
      else if c2.toNat < c1.toNat then false
      else leChars t1 t2

/-- Lexicographic order on strings. -/
def strLe (a b : String) : Bool := leChars a.data b.data

/-- `sorted(names)`: lexicographically ascending column names. -/
def sortStrings (names : List String) : List String :=
  names.insertionSort (fun a b => strLe a b = true)

/-! ## transform.py: the fixed-point derivation loop -/

/-- `ITER_MAX`: the default derivation round cap. -/
def ITER_MAX : Nat := 10

/-- The fatal derivation error, carrying the still-unresolved field names. -/
structure DerivationTimeoutError where
  unresolved : List String
deriving DecidableEq, Repr

/-- The names of the fields not yet derived. -/
def underivedNames (fields : List Field) : List String :=
  (fields.filter (fun f => !f.derived)).map Field.name

/-- `get_exprs`: one round's batch.  Every not-yet-derived field is asked
for its first satisfiable candidate against the same schema `names`;
fields selected this round are marked derived. -/
def get_exprs : List Field → List String → List Field × List (String × Expr)
  | [], _ => ([], [])
  | f :: fs, names =>
      let rest := get_exprs fs names
      if f.derived then (f :: rest.1, rest.2)
      else
        match f.get_expr names with
        | (f', some p) => (f' :: rest.1, p :: rest.2)
        | (f', Option.none) => (f' :: rest.1, rest.2)

/-- Names added to the tracked schema after a round
(`lf_schema.update({name: ... for name in exprs})`): existing names keep
their position, new names are appended. -/
def updNames (names : List String) (new : List String) : List String :=
  new.foldl (fun acc nm => if acc.contains nm then acc else acc ++ [nm]) names

/-- One entry of the loop trace: the fields and tracked schema names at
the start of an executed round, and the batch that round selected. -/
structure Round where
  fields : List Field
  names : List String
  batch : List (String × Expr)
deriving DecidableEq, Repr

/-- `transform`'s per-run reset of the derived flags
(`[setattr(col, 'derived', False) for col in fields]`). -/
def resetFields (fields : List Field) : List Field :=
  fields.map (fun f => { f with derived := false })

/-- The loop of `transform`, instrumented with the list of executed
(non-empty) rounds.  Faithful to the source: the iteration-cap check
comes first and raises, naming the underived fields; an empty batch
breaks out of the loop; otherwise the batch is applied in one step and
the tracked schema gains the batch's output names.  The structural `fuel`
argument is always called with `maxIter + 2 - n`, so the fuel-exhausted
base case (which mirrors the cap error) is never reached. -/
def transformLoop (maxIter : Nat) : Nat → Nat → LF → List Field → List String →
    List Round × Except DerivationTimeoutError (LF × List Field)
  | 0, _, _, fields, _ => ([], .error ⟨underivedNames fields⟩)
  | fuel + 1, n, ldf, fields, names =>
      if maxIter < n then ([], .error ⟨underivedNames fields⟩)
      else
        let step := get_exprs fields names
        if step.2 = [] then ([], .ok (ldf, step.1))
        else
          let rest := transformLoop maxIter fuel (n + 1) (ldf.withColumns step.2)
            step.1 (updNames names (step.2.map Prod.fst))
          (⟨fields, names, step.2⟩ :: rest.1, rest.2)

/-- `transform`: reset the derived flags, run the loop, then assign every
still-underived field its literal default and project to the sorted field
names. -/
def transform (ldf : LF) (fields : List Field) (maxIter : Nat := ITER_MAX) :
    Except DerivationTimeoutError LF :=
  match (transformLoop maxIter (maxIter + 2) 0 ldf (resetFields fields)
      ldf.columns).2 with
  | .error e => .error e
  | .ok (ldf', fields') =>
      let lits := (fields'.filter (fun f => !f.derived)).map
        (fun f => (f.name, f.literal))
      .ok ((ldf'.withColumns lits).select
        (sortStrings (fields'.map Field.name)))

/-- The executed rounds of a `transform` run. -/
def transformTrace (ldf : LF) (fields : List Field) (maxIter : Nat := ITER_MAX) :
    List Round :=
  (transformLoop maxIter (maxIter + 2) 0 ldf (resetFields fields)
    ldf.columns).1

/-! ## transform.py: reconciling append -/

/-- `set(current) | set(other)` rendered as a deterministic list:
the first frame's names followed by the second's new names. -/
def unionNames (a b : List String) : List String :=
  a ++ b.filter (fun nm => !a.contains nm)

/-- `append`: pad each frame with typed null columns for the names only
the other frame has, then concatenate the two projections. -/
def appendLF (lf other : LF) : LF :=
  let allColumns := unionNames lf.columns other.columns
  let lf1 := lf.withColumns ((allColumns.filter
      (fun c => !lf.columns.contains c)).map
    (fun c => (c, Expr.cast (.lit .none) (other.typeOf c))))
  let lf2 := other.withColumns ((allColumns.filter
      (fun c => !other.columns.contains c)).map
    (fun c => (c, Expr.cast (.lit .none) (lf.typeOf c))))
  { schema := (lf1.select allColumns).schema
    rows := (lf1.select allColumns).rows + (lf2.select allColumns).rows }

/-! ## transform.py: normalize (struct unnest / list explode) -/

mutual
/-- Size of a data type (for the normalization termination measure). -/
def DType.size : DType → Nat
  | .scalar _ => 1
  | .list t => 1 + t.size
  | .struct fs => 1 + fs.size

/-- Total size of a struct's field types. -/
def FieldsT.size : FieldsT → Nat
  | .nil => 0
  | .cons _ t fs => t.size + fs.size
end

/-- The flattened schema entries of a struct column: each inner field
becomes a column named `parent<separator>child`. -/
def FieldsT.entries (parent sep : String) : FieldsT → Schema
  | .nil => []
  | .cons n t fs => (parent ++ sep ++ n, t) :: fs.entries parent sep

/-- Total size of the types of a schema. -/
def schemaSize (s : Schema) : Nat := (s.map (fun p => p.2.size)).sum

/-- Python's substring test `pat in s`. -/
def strContains (s pat : String) : Bool := decide (pat.data <:+: s.data)

/-- `get_expandable`: the struct-typed and list-typed column names that the
requested method will expand, optionally restricted to columns whose name
has one of `columns` as a substring. -/
def get_expandable (how : String) (schema : Schema) (columns : List String) :
    List String × List String :=
  let cols := if columns ≠ [] then
      (schema.map Prod.fst).filter
        (fun c => columns.any (fun name => strContains c name))
    else schema.map Prod.fst
  let structs := if strContains how "unnest" then
      cols.filter (fun n => (schemaType schema n).isStruct) else []
  let lists := if strContains how "explode" then
      cols.filter (fun n => (schemaType schema n).isList) else []
  (structs, lists)

/-- The schema-level effect of `ldf.explode` on one column entry: a listed
list-typed column is replaced by its element type. -/
def explodeEntry (lists : List String) (p : String × DType) : String × DType :=
  if lists.contains p.1 then
    match p.2 with
    | .list u => (p.1, u)
    | t => (p.1, t)
  else p

/-- `ldf.explode(lists)` at schema level. -/
def explodeLists (s : Schema) (lists : List String) : Schema :=
  s.map (explodeEntry lists)

/-- The schema-level effect of `unnest_rename` on one column entry: a listed
struct-typed column is replaced, in place, by its renamed flattened fields. -/
def unnestEntry (structs : List String) (sep : String) (p : String × DType) : Schema :=
  if structs.contains p.1 then
    match p.2 with
    | .struct fs => fs.entries p.1 sep
    | t => [(p.1, t)]
  else [p]

/-- `unnest_rename` at schema level. -/
def unnest_rename (s : Schema) (structs : List String) (sep : String) : Schema :=
  s.flatMap (unnestEntry structs sep)

theorem schemaSize_cons (p : String × DType) (s : Schema) :
    schemaSize (p :: s) = p.2.size + schemaSize s := by
  simp [schemaSize]

theorem schemaSize_entries (parent sep : String) :
    ∀ fs : FieldsT, schemaSize (FieldsT.entries parent sep fs) = fs.size
  | .nil => rfl
  | .cons n t fs => by
      rw [FieldsT.entries, schemaSize_cons, FieldsT.size,
        schemaSize_entries parent sep fs]

theorem schemaSize_append (a b : Schema) :
    schemaSize (a ++ b) = schemaSize a + schemaSize b := by
  simp [schemaSize]

theorem schemaSize_flatMap (s : Schema) (φ : String × DType → Schema) :
    schemaSize (s.flatMap φ) = (s.map (fun p => schemaSize (φ p))).sum := by
  induction s with
  | nil => rfl
  | cons p s ih => simp [List.flatMap_cons, schemaSize_append, ih]

theorem explodeEntry_size_le (lists : List String) (p : String × DType) :
    (explodeEntry lists p).2.size ≤ p.2.size := by
  obtain ⟨n, t⟩ := p
  by_cases h : n ∈ lists
  · cases t <;> simp [explodeEntry, h, DType.size]
  · simp [explodeEntry, h]

theorem explodeEntry_size_lt (lists : List String) (p : String × DType)
    (h1 : p.1 ∈ lists) (h2 : p.2.isList) :
    (explodeEntry lists p).2.size < p.2.size := by
  obtain ⟨n, t⟩ := p
  cases t with
  | scalar s => simp [DType.isList] at h2
  | struct fs => simp [DType.isList] at h2
  | list u => simp [explodeEntry, h1, DType.size]

theorem unnestEntry_size_le (structs : List String) (sep : String)
    (p : String × DType) :
    schemaSize (unnestEntry structs sep p) ≤ p.2.size := by
  obtain ⟨n, t⟩ := p
  by_cases h : n ∈ structs
  · cases t with
    | scalar s => simp [unnestEntry, h, schemaSize]
    | list u => simp [unnestEntry, h, schemaSize]
    | struct fs =>
        simp [unnestEntry, h, schemaSize_entries, DType.size]
  · simp [unnestEntry, h, schemaSize]

theorem unnestEntry_size_lt (structs : List String) (sep : String)
    (p : String × DType) (h1 : p.1 ∈ structs) (h2 : p.2.isStruct) :
    schemaSize (unnestEntry structs sep p) < p.2.size := by
  obtain ⟨n, t⟩ := p
  cases t with
  | scalar s => simp [DType.isStruct] at h2
  | list u => simp [DType.isStruct] at h2
  | struct fs =>
      simp [unnestEntry, h1, schemaSize_entries, DType.size]

theorem explodeLists_decreases (s : Schema) (lists : List String)
    (hw : ∃ q ∈ s, q.1 ∈ lists ∧ q.2.isList) :
    schemaSize (explodeLists s lists) < schemaSize s := by
  unfold explodeLists schemaSize
  rw [List.map_map]
  refine List.sum_lt_sum _ _ (fun p _ => explodeEntry_size_le lists p) ?_
  obtain ⟨q, hq, hc, hl⟩ := hw
  exact ⟨q, hq, explodeEntry_size_lt lists q hc hl⟩

theorem unnest_decreases (s : Schema) (structs : List String) (sep : String)
    (hw : ∃ q ∈ s, q.1 ∈ structs ∧ q.2.isStruct) :
    schemaSize (unnest_rename s structs sep) < schemaSize s := by
  unfold unnest_rename
  rw [schemaSize_flatMap]
  have hs : schemaSize s = (s.map (fun p => p.2.size)).sum := rfl
  rw [hs]
  refine List.sum_lt_sum _ _ (fun p _ => unnestEntry_size_le structs sep p) ?_
  obtain ⟨q, hq, hc, hl⟩ := hw
  exact ⟨q, hq, unnestEntry_size_lt structs sep q hc hl⟩

theorem get_expandable_structs_mem (how : String) (schema : Schema)
    (columns : List String) :
    ∀ n ∈ (get_expandable how schema columns).1,
      ∃ q ∈ schema, q.1 = n ∧ q.2.isStruct := by
  intro n hn
  unfold get_expandable at hn
  simp only at hn
  split at hn
  · rcases List.mem_filter.1 hn with ⟨-, hp⟩
    rcases hfind : schema.find? (fun p => p.1 = n) with _ | q
    · simp [schemaType, hfind, DType.isStruct] at hp
    · refine ⟨q, List.mem_of_find?_eq_some hfind, ?_, ?_⟩
      · have := List.find?_some hfind
        simpa using this
      · simpa [schemaType, hfind] using hp
  · simp at hn

theorem get_expandable_lists_mem (how : String) (schema : Schema)
    (columns : List String) :
    ∀ n ∈ (get_expandable how schema columns).2,
      ∃ q ∈ schema, q.1 = n ∧ q.2.isList := by
  intro n hn
  unfold get_expandable at hn
  simp only at hn
  split at hn
  · rcases List.mem_filter.1 hn with ⟨-, hp⟩
    rcases hfind : schema.find? (fun p => p.1 = n) with _ | q
    · simp [schemaType, hfind, DType.isList] at hp
    · refine ⟨q, List.mem_of_find?_eq_some hfind, ?_, ?_⟩
      · have := List.find?_some hfind
        simpa using this
      · simpa [schemaType, hfind] using hp
  · simp at hn

/-- One pass of the `normalize` loop: explode first if any list columns
remain, else unnest. -/
def normStep (how sep : String) (columns : List String) (schema : Schema) :
    Schema :=
  if (get_expandable how schema columns).2 ≠ [] then
    explodeLists schema (get_expandable how schema columns).2
  else unnest_rename schema (get_expandable how schema columns).1 sep

theorem normStep_decreases (how sep : String) (columns : List String)
    (schema : Schema)
    (h : ¬((get_expandable how schema columns).1 = [] ∧
           (get_expandable how schema columns).2 = [])) :
    schemaSize (normStep how sep columns schema) < schemaSize schema := by
  unfold normStep
  by_cases h2 : (get_expandable how schema columns).2 = []
  · have h1 : (get_expandable how schema columns).1 ≠ [] := by
      intro hc; exact h ⟨hc, h2⟩
    simp only [h2, ne_eq, not_true_eq_false, if_false]
    rcases List.exists_mem_of_ne_nil _ h1 with ⟨n, hn⟩
    rcases get_expandable_structs_mem how schema columns n hn with ⟨q, hq, hqn, hqs⟩
    refine unnest_decreases schema _ sep ⟨q, hq, ?_, hqs⟩
    subst hqn
    exact hn
  · simp only [h2, ne_eq, not_false_eq_true, if_true]
    rcases List.exists_mem_of_ne_nil _ h2 with ⟨n, hn⟩
    rcases get_expandable_lists_mem how schema columns n hn with ⟨q, hq, hqn, hql⟩
    refine explodeLists_decreases schema _ ⟨q, hq, ?_, hql⟩
    subst hqn
    exact hn

/-- The `while structs or lists` loop of `normalize`, at schema level:
transform one pass, stop after one pass for `*-first` modes, else repeat
until no expandable column remains.  The structural `fuel` argument is
always called with more than `schemaSize schema`, which every pass
strictly decreases (`normStep_decreases`), so the fuel-exhausted base
case is never reached. -/
def normLoopAux (how sep : String) (columns : List String) :
    Nat → Schema → Schema
  | 0, schema => schema
  | fuel + 1, schema =>
      if (get_expandable how schema columns).1 = [] ∧
         (get_expandable how schema columns).2 = [] then schema
      else if strContains how "first" then normStep how sep columns schema
      else normLoopAux how sep columns fuel (normStep how sep columns schema)

/-- The `normalize` loop entered with sufficient fuel. -/
def normLoop (how sep : String) (columns : List String) (schema : Schema) :
    Schema :=
  normLoopAux how sep columns (schemaSize schema + 1) schema

/-- `normalize` at schema level (the `if not how: return ldf` guard, then
the expansion loop). -/
def normalize (schema : Schema) (sep : String := ".")
    (columns : List String := []) (how : String := "explode-unnest") : Schema :=
  if how = "" then schema else normLoop how sep columns schema

/-! ## model.py: ModelMeta field collection (inheritance) -/

/-- One step of Python's `fields[key] = col` on an ordered dict rendered as
a list: an existing name keeps its position but its Field is replaced, a
new name is appended at the end. -/
def dictUpsert (acc : List Field) (f : Field) : List Field :=
  if acc.any (fun g => g.name = f.name) then
    acc.map (fun g => if g.name = f.name then f else g)
  else acc ++ [f]

/-- `ModelMeta.__new__`'s field list: start from the (already merged) base
fields keyed by name, then insert each of the child's own fields in
declaration order, overriding by name. -/
def modelFields (baseFields childFields : List Field) : List Field :=
  childFields.foldl dictUpsert baseFields

/-- Modelled from the spec words of the claim (for comparison with
`modelFields`): the child's fields declared first, followed by the
parent's fields only for names not already defined in the child. -/
def claimedModelFields (baseFields childFields : List Field) : List Field :=
  childFields ++ baseFields.filter
    (fun f => !(childFields.map Field.name).contains f.name)

/-! ## main.py: TadpoleBase.derive -/

/-- `main.Field`, reduced to what `derive` consumes: name, dtype, default
and the ordered bound candidate expressions. -/
structure MField where
  name : String
  dtype : DType
  default : PyVal
  expressions : List Expr
  primaryKey : Bool
deriving DecidableEq, Repr

/-- `main.Field.literal`: `pl.lit(self.default).alias(self.name).cast(self.dtype)`. -/
def MField.literal (f : MField) : Expr :=
  .cast (.alias (.lit f.default) f.name) f.dtype

/-- `main.Field.derivable`: the first expression whose roots are all in
the context. -/
def MField.derivable (f : MField) (context : List String) : Option Expr :=
  f.expressions.find? (fun e => satisfiable e context)

/-- `TadpoleBase.model_schema`: `{field.name: field.dtype for field in cls.fields}`. -/
def modelSchema (fields : List MField) : Schema :=
  fields.foldl (fun acc f => upsertCol acc f.name f.dtype) []

/-- `TadpoleBase.derivable_expressions`: scan the not-yet-derived fields
against the current columns, collecting each one's first satisfiable
expression and recording the field as derived. -/
def derivableExpressions : List MField → List String → List String →
    List String × List (String × Expr)
  | [], derived, _ => (derived, [])
  | f :: fs, derived, context =>
      if derived.contains f.name then derivableExpressions fs derived context
      else
        match f.derivable context with
        | some e =>
            let rest := derivableExpressions fs (derived ++ [f.name]) context
            (rest.1, (f.name, e) :: rest.2)
        | Option.none => derivableExpressions fs derived context

/-- The loop of `TadpoleBase.derive`, instrumented with the executed
batches: fail past the iteration cap naming the underived fields, break
on an empty batch, else apply the batch and continue.  The structural
`fuel` argument is always called with `iterMax + 2 - n`, so the
fuel-exhausted base case is never reached. -/
def deriveLoop (iterMax : Nat) : Nat → Nat → LF → List MField → List String →
    List (List (String × Expr)) × Except DerivationTimeoutError (LF × List String)
  | 0, _, _, fields, derived =>
      ([], .error ⟨(fields.filter (fun f => !derived.contains f.name)).map MField.name⟩)
  | fuel + 1, n, lf, fields, derived =>
      if iterMax < n then
        ([], .error ⟨(fields.filter (fun f => !derived.contains f.name)).map MField.name⟩)
      else
        let step := derivableExpressions fields derived lf.columns
        if step.2 = [] then ([], .ok (lf, step.1))
        else
          let rest := deriveLoop iterMax fuel (n + 1) (lf.withColumns step.2)
            fields step.1
          (step.2 :: rest.1, rest.2)

/-- `TadpoleBase.derive`, instrumented with the executed batches.  A frame
with no columns at all short-circuits to an empty frame carrying exactly
the model schema, evaluating no candidate; otherwise the loop runs, the
still-underived fields fall back to their literals, and the result is
projected to the sorted field names. -/
def derive (lf : LF) (fields : List MField) (iterMax : Nat := ITER_MAX) :
    List (List (String × Expr)) × Except DerivationTimeoutError LF :=
  if lf.columns = [] then ([], .ok ⟨modelSchema fields, 0⟩)
  else
    let r := deriveLoop iterMax (iterMax + 2) 0 lf fields []
    match r.2 with
    | .error e => (r.1, .error e)
    | .ok (lf', derived) =>
        let lits := (fields.filter (fun f => !derived.contains f.name)).map
          (fun f => (f.name, f.literal))
        (r.1, .ok ((lf'.withColumns lits).select
          (sortStrings (fields.map MField.name))))

/-! ## Auxiliary notions for stating the loop laws -/

instance {ε α : Type} [DecidableEq ε] [DecidableEq α] : DecidableEq (Except ε α) :=
  fun a b =>
    match a, b with
    | .error e1, .error e2 => decidable_of_iff (e1 = e2) (by simp)
    | .ok v1, .ok v2 => decidable_of_iff (v1 = v2) (by simp)
    | .error _, .ok _ => isFalse (by simp)
    | .ok _, .error _ => isFalse (by simp)

/-- The abstract effect of one derivation round on the loop state. -/
def roundStep (st : List Field × List String) : List Field × List String :=
  ((get_exprs st.1 st.2).1,
   updNames st.2 (((get_exprs st.1 st.2).2).map Prod.fst))

/-- The loop state reached after `k` rounds. -/
def roundState (st : List Field × List String) : Nat → List Field × List String
  | 0 => st
  | k + 1 => roundStep (roundState st k)

/-- The batch that round `k` would select. -/
def batchAt (st : List Field × List String) (k : Nat) : List (String × Expr) :=
  (get_exprs (roundState st k).1 (roundState st k).2).2

/-- A trace is coherent with an initial loop state: each recorded round
starts from the running state, selects its batch from that state's schema
names, and hands the next round the stepped state. -/
def TraceOK : List Round → List Field × List String → Prop
  | [], _ => True
  | r :: rest, st =>
      r.fields = st.1 ∧ r.names = st.2 ∧
      r.batch = (get_exprs st.1 st.2).2 ∧ r.batch ≠ [] ∧
      TraceOK rest (roundStep st)

/-! ## General lemmas about the schema operations -/

theorem schemaType_map_replace (s : Schema) (nm c : String) (t : DType)
    (h : nm ≠ c) :
    schemaType (s.map (fun p => if p.1 = nm then (nm, t) else p)) c
      = schemaType s c := by
  induction s with
  | nil => rfl
  | cons p s ih =>
      unfold schemaType at ih ⊢
      by_cases hpn : p.1 = nm
      · rw [List.map_cons, if_pos hpn,
          List.find?_cons_of_neg _ (by simpa using h),
          List.find?_cons_of_neg _ (by simp [hpn, h])]
        exact ih
      · rw [List.map_cons, if_neg hpn]
        by_cases hpc : p.1 = c
        · rw [List.find?_cons_of_pos _ (by simpa using hpc),
            List.find?_cons_of_pos _ (by simpa using hpc)]
        · rw [List.find?_cons_of_neg _ (by simpa using hpc),
            List.find?_cons_of_neg _ (by simpa using hpc)]
          exact ih

theorem schemaType_map_replace_self (s : Schema) (nm : String) (t : DType)
    (hany : s.any (fun p => p.1 = nm)) :
    schemaType (s.map (fun p => if p.1 = nm then (nm, t) else p)) nm = t := by
  induction s with
  | nil => simp at hany
  | cons p s ih =>
      by_cases hpn : p.1 = nm
      · unfold schemaType
        rw [List.map_cons, if_pos hpn, List.find?_cons_of_pos _ (by simp)]
      · unfold schemaType at ih ⊢
        rw [List.map_cons, if_neg hpn,
          List.find?_cons_of_neg _ (by simpa using hpn)]
        apply ih
        simp only [List.any_cons, Bool.or_eq_true, decide_eq_true_eq] at hany
        rcases hany with hc | hc
        · exact absurd hc hpn
        · simpa using hc

theorem schemaType_upsert_other (s : Schema) (nm : String) (t : DType)
    (c : String) (h : nm ≠ c) :
    schemaType (upsertCol s nm t) c = schemaType s c := by
  unfold upsertCol
  split
  · exact schemaType_map_replace s nm c t h
  · unfold schemaType
    rw [List.find?_append]
    have hone : List.find? (fun p => decide (p.1 = c)) [(nm, t)] = Option.none := by
      simp [List.find?, h]
    rw [hone]
    cases List.find? (fun p => decide (p.1 = c)) s <;> simp

theorem schemaType_upsert_self (s : Schema) (nm : String) (t : DType) :
    schemaType (upsertCol s nm t) nm = t := by
  unfold upsertCol
  split
  · rename_i hany
    exact schemaType_map_replace_self s nm t hany
  · unfold schemaType
    rw [List.find?_append]
    rename_i hany
    have hnone : List.find? (fun p => decide (p.1 = nm)) s = Option.none := by
      rw [List.find?_eq_none]
      intro p hp
      simp only [List.any_eq_true, decide_eq_true_eq] at hany
      simp only [decide_eq_true_eq]
      exact fun hc => hany ⟨p, hp, hc⟩
    simp [hnone, List.find?]

theorem schemaType_foldl_upsert_skip (base : Schema) (batch : List (String × Expr))
    (c : String) (h : ∀ p ∈ batch, p.1 ≠ c) :
    ∀ acc : Schema,
      schemaType (batch.foldl (fun a p => upsertCol a p.1 (exprType base p.2)) acc) c
        = schemaType acc c := by
  induction batch with
  | nil => intro acc; rfl
  | cons p batch ih =>
      intro acc
      rw [List.foldl_cons, ih (fun q hq => h q (List.mem_cons_of_mem p hq)),
        schemaType_upsert_other _ _ _ _ (h p (List.mem_cons_self p batch))]

theorem schemaType_foldl_upsert_mem (base : Schema) (batch : List (String × Expr))
    (c : String) (e : Expr) (hmem : (c, e) ∈ batch)
    (hnd : (batch.map Prod.fst).Nodup) :
    ∀ acc : Schema,
      schemaType (batch.foldl (fun a p => upsertCol a p.1 (exprType base p.2)) acc) c
        = exprType base e := by
  induction batch with
  | nil => exact absurd hmem (List.not_mem_nil _)
  | cons p batch ih =>
      intro acc
      rcases List.mem_cons.1 hmem with hh | ht
      · subst hh
        rw [List.foldl_cons]
        have hrest : ∀ q ∈ batch, q.1 ≠ c := by
          intro q hq
          simp only [List.map_cons, List.nodup_cons] at hnd
          intro hc
          exact hnd.1 (hc ▸ List.mem_map_of_mem Prod.fst hq)
        rw [schemaType_foldl_upsert_skip base batch c hrest,
          schemaType_upsert_self]
      · simp only [List.map_cons, List.nodup_cons] at hnd
        rw [List.foldl_cons]
        exact ih ht hnd.2 _

theorem LF.typeOf_withColumns_skip (lf : LF) (batch : List (String × Expr))
    (c : String) (h : ∀ p ∈ batch, p.1 ≠ c) :
    (lf.withColumns batch).typeOf c = lf.typeOf c :=
  schemaType_foldl_upsert_skip lf.schema batch c h lf.schema

theorem LF.typeOf_withColumns_mem (lf : LF) (batch : List (String × Expr))
    (c : String) (e : Expr) (hmem : (c, e) ∈ batch)
    (hnd : (batch.map Prod.fst).Nodup) :
    (lf.withColumns batch).typeOf c = exprType lf.schema e :=
  schemaType_foldl_upsert_mem lf.schema batch c e hmem hnd lf.schema

theorem schemaType_map_self (ns : List String) (g : String → DType) (c : String) :
    schemaType (ns.map (fun nm => (nm, g nm))) c
      = if c ∈ ns then g c else .scalar "Unknown" := by
  induction ns with
  | nil => simp [schemaType]
  | cons n ns ih =>
      unfold schemaType at ih ⊢
      by_cases hn : n = c
      · subst hn
        rw [List.map_cons, List.find?_cons_of_pos _ (by simp)]
        simp
      · rw [List.map_cons, List.find?_cons_of_neg _ (by simpa using hn), ih]
        have hmem : (c ∈ n :: ns) ↔ (c ∈ ns) := by
          constructor
          · intro hc
            rcases List.mem_cons.1 hc with hh | ht
            · exact absurd hh.symm hn
            · exact ht
          · exact List.mem_cons_of_mem n
        by_cases hc : c ∈ ns <;> simp [hmem, hc]

theorem LF.columns_select (lf : LF) (ns : List String) :
    (lf.select ns).columns = ns := by
  show List.map Prod.fst (ns.map (fun nm => (nm, lf.typeOf nm))) = ns
  induction ns with
  | nil => rfl
  | cons n ns ih => simp only [List.map_cons, ih]

theorem LF.typeOf_select (lf : LF) (ns : List String) (c : String) :
    (lf.select ns).typeOf c = if c ∈ ns then lf.typeOf c else .scalar "Unknown" :=
  schemaType_map_self ns lf.typeOf c

theorem LF.rows_withColumns (lf : LF) (batch : List (String × Expr)) :
    (lf.withColumns batch).rows = lf.rows := rfl

theorem LF.rows_select (lf : LF) (ns : List String) :
    (lf.select ns).rows = lf.rows := rfl

/-! ## Lemmas about `updNames` -/

theorem mem_updNames_left (ns new : List String) (w : String) (h : w ∈ ns) :
    w ∈ updNames ns new := by
  induction new generalizing ns with
  | nil => exact h
  | cons m new ih =>
      unfold updNames at ih ⊢
      rw [List.foldl_cons]
      split
      · exact ih ns h
      · exact ih (ns ++ [m]) (List.mem_append_left _ h)

theorem mem_updNames_right (ns new : List String) (w : String) (h : w ∈ new) :
    w ∈ updNames ns new := by
  induction new generalizing ns with
  | nil => exact absurd h (List.not_mem_nil w)
  | cons m new ih =>
      unfold updNames at ih ⊢
      rw [List.foldl_cons]
      rcases List.mem_cons.1 h with hh | ht
      · subst hh
        split
        · rename_i hc
          exact mem_updNames_left ns new w (by simpa using hc)
        · exact mem_updNames_left _ new w (List.mem_append_right _ (by simp))
      · split
        · exact ih ns ht
        · exact ih (ns ++ [m]) ht

/-! ## Lemmas about `get_exprs` and the derivation loop -/

theorem get_expr_fst_name (f : Field) (names : List String) :
    (f.get_expr names).1.name = f.name := by
  unfold Field.get_expr
  cases f.exprs.find? (fun e => satisfiable e names) <;> rfl

theorem get_exprs_map_name (fields : List Field) (names : List String) :
    (get_exprs fields names).1.map Field.name = fields.map Field.name := by
  induction fields with
  | nil => rfl
  | cons f fs ih =>
      by_cases hd : f.derived
      · simp [get_exprs, hd, ih]
      · rcases hfe : f.get_expr names with ⟨f', o⟩
        have hname : f'.name = f.name := by
          have hh := get_expr_fst_name f names
          rw [hfe] at hh
          exact hh
        cases o <;> simp [get_exprs, hd, hfe, ih, hname]

theorem transformLoop_ok_rows (maxIter : Nat) :
    ∀ (fuel n : Nat) (ldf : LF) (fields : List Field) (names : List String)
      (lfr : LF) (fr : List Field),
      (transformLoop maxIter fuel n ldf fields names).2 = .ok (lfr, fr) →
      lfr.rows = ldf.rows := by
  intro fuel
  induction fuel with
  | zero =>
      intro n ldf fields names lfr fr h
      simp [transformLoop] at h
  | succ fuel ih =>
      intro n ldf fields names lfr fr h
      unfold transformLoop at h
      by_cases hc : maxIter < n
      · simp [hc] at h
      · simp only [hc, if_false] at h
        by_cases he : (get_exprs fields names).2 = []
        · simp only [he, if_pos] at h
          obtain ⟨h1, -⟩ := Prod.mk.injEq .. ▸ (Except.ok.injEq .. ▸ h)
          rw [← h1]
        · simp only [he, if_neg, not_false_iff] at h
          have hr := ih (n + 1) (ldf.withColumns (get_exprs fields names).2)
            (get_exprs fields names).1
            (updNames names ((get_exprs fields names).2.map Prod.fst)) lfr fr h
          rw [hr]
          rfl

theorem transformLoop_ok_names (maxIter : Nat) :
    ∀ (fuel n : Nat) (ldf : LF) (fields : List Field) (names : List String)
      (lfr : LF) (fr : List Field),
      (transformLoop maxIter fuel n ldf fields names).2 = .ok (lfr, fr) →
      fr.map Field.name = fields.map Field.name := by
  intro fuel
  induction fuel with
  | zero =>
      intro n ldf fields names lfr fr h
      simp [transformLoop] at h
  | succ fuel ih =>
      intro n ldf fields names lfr fr h
      unfold transformLoop at h
      by_cases hc : maxIter < n
      · simp [hc] at h
      · simp only [hc, if_false] at h
        by_cases he : (get_exprs fields names).2 = []
        · simp only [he, if_pos] at h
          obtain ⟨-, h2⟩ := Prod.mk.injEq .. ▸ (Except.ok.injEq .. ▸ h)
          rw [← h2, get_exprs_map_name]
        · simp only [he, if_neg, not_false_iff] at h
          have hr := ih (n + 1) (ldf.withColumns (get_exprs fields names).2)
            (get_exprs fields names).1
            (updNames names ((get_exprs fields names).2.map Prod.fst)) lfr fr h
          rw [hr, get_exprs_map_name]

theorem transformLoop_TraceOK (maxIter : Nat) :
    ∀ (fuel n : Nat) (ldf : LF) (fields : List Field) (names : List String),
      TraceOK (transformLoop maxIter fuel n ldf fields names).1 (fields, names) := by
  intro fuel
  induction fuel with
  | zero =>
      intro n ldf fields names
      simp [transformLoop, TraceOK]
  | succ fuel ih =>
      intro n ldf fields names
      unfold transformLoop
      by_cases hc : maxIter < n
      · simp [hc, TraceOK]
      · simp only [hc, if_false]
        by_cases he : (get_exprs fields names).2 = []
        · simp [he, TraceOK]
        · simp only [he, if_neg, not_false_iff]
          exact ⟨rfl, rfl, rfl, he, ih (n + 1) _ _ _⟩

theorem traceOK_batch (tr : List Round) :
    ∀ st, TraceOK tr st → ∀ i (hi : i < tr.length),
      (tr.get ⟨i, hi⟩).batch
        = (get_exprs (tr.get ⟨i, hi⟩).fields (tr.get ⟨i, hi⟩).names).2 := by
  induction tr with
  | nil => intro st _ i hi; simp at hi
  | cons r rest ih =>
      intro st hok i hi
      obtain ⟨hf, hn, hb, -, hrest⟩ := hok
      cases i with
      | zero => simpa [hf, hn] using hb
      | succ i => exact ih (roundStep st) hrest i (Nat.lt_of_succ_lt_succ hi)

theorem traceOK_chain (tr : List Round) :
    ∀ st, TraceOK tr st → ∀ i (hi : i < tr.length) (hj : i + 1 < tr.length),
      (tr.get ⟨i + 1, hj⟩).fields
          = (get_exprs (tr.get ⟨i, hi⟩).fields (tr.get ⟨i, hi⟩).names).1
      ∧ (tr.get ⟨i + 1, hj⟩).names
          = updNames (tr.get ⟨i, hi⟩).names
              (((tr.get ⟨i, hi⟩).batch).map Prod.fst) := by
  induction tr with
  | nil => intro st _ i hi; simp at hi
  | cons r rest ih =>
      intro st hok i hi hj
      obtain ⟨hf, hn, hb, -, hrest⟩ := hok
      cases i with
      | zero =>
          cases rest with
          | nil => simp at hj
          | cons r2 rest2 =>
              obtain ⟨hf2, hn2, -, -, -⟩ := hrest
              constructor
              · simpa [hf, hn] using hf2
              · simp only [List.get]
                rw [hn2, hb, hn]
                rfl
      | succ i =>
          exact ih (roundStep st) hrest i (Nat.lt_of_succ_lt_succ hi)
            (Nat.lt_of_succ_lt_succ hj)

theorem traceOK_head (tr : List Round) (st : List Field × List String)
    (hok : TraceOK tr st) (h0 : 0 < tr.length) :
    (tr.get ⟨0, h0⟩).fields = st.1 ∧ (tr.get ⟨0, h0⟩).names = st.2 := by
  cases tr with
  | nil => simp at h0
  | cons r rest => exact ⟨hok.1, hok.2.1⟩

theorem roundState_succ_left (st : List Field × List String) (k : Nat) :
    roundState st (k + 1) = roundState (roundStep st) k := by
  induction k with
  | zero => rfl
  | succ k ih =>
      show roundStep (roundState st (k + 1)) = roundState (roundStep st) (k + 1)
      rw [ih]
      rfl

theorem batchAt_succ_left (st : List Field × List String) (k : Nat) :
    batchAt st (k + 1) = batchAt (roundStep st) k := by
  unfold batchAt
  rw [roundState_succ_left]

theorem transformLoop_error_iff (maxIter : Nat) :
    ∀ (fuel n : Nat) (ldf : LF) (fields : List Field) (names : List String),
      n + fuel = maxIter + 2 →
      ((∃ e, (transformLoop maxIter fuel n ldf fields names).2 = .error e)
        ↔ ∀ k, k < fuel - 1 → batchAt (fields, names) k ≠ [])
      ∧ (∀ e, (transformLoop maxIter fuel n ldf fields names).2 = .error e →
          e = ⟨underivedNames ((roundState (fields, names) (fuel - 1)).1)⟩) := by
  intro fuel
  induction fuel with
  | zero =>
      intro n ldf fields names hinv
      refine ⟨⟨fun _ k hk => absurd hk (by omega), fun _ => ⟨_, rfl⟩⟩, ?_⟩
      intro e he
      simp only [transformLoop, Except.error.injEq] at he
      exact he.symm
  | succ fuel ih =>
      intro n ldf fields names hinv
      unfold transformLoop
      by_cases hc : maxIter < n
      · have hf0 : fuel = 0 := by omega
        subst hf0
        simp only [hc, if_pos]
        refine ⟨⟨fun _ k hk => absurd hk (by omega), fun _ => ⟨_, rfl⟩⟩, ?_⟩
        intro e he
        simp only [Except.error.injEq] at he
        exact he.symm
      · have hfpos : 1 ≤ fuel := by omega
        simp only [hc, if_false]
        by_cases he : (get_exprs fields names).2 = []
        · simp only [he, if_pos]
          constructor
          · constructor
            · rintro ⟨e, hee⟩
              simp at hee
            · intro hall
              exact absurd he (hall 0 (by omega))
          · intro e hee
            simp at hee
        · simp only [he, if_neg, not_false_iff]
          have hrec := ih (n + 1) (ldf.withColumns (get_exprs fields names).2)
            (get_exprs fields names).1
            (updNames names ((get_exprs fields names).2.map Prod.fst)) (by omega)
          have hstep : roundStep (fields, names)
              = ((get_exprs fields names).1,
                 updNames names ((get_exprs fields names).2.map Prod.fst)) := rfl
          constructor
          · rw [hrec.1]
            constructor
            · intro hall k hk
              cases k with
              | zero => exact he
              | succ k =>
                  rw [batchAt_succ_left, hstep]
                  exact hall k (by omega)
            · intro hall k hk
              have := hall (k + 1) (by omega)
              rw [batchAt_succ_left, hstep] at this
              exact this
          · intro e hee
            have := hrec.2 e hee
            rw [this]
            have hfs : fuel + 1 - 1 = (fuel - 1) + 1 := by omega
            rw [hfs, roundState_succ_left, hstep]

/-! ## Concrete fixtures used by witnesses and counterexamples -/

/-- A field deriving column `a` from source column `x`. -/
def fWa : Field :=
  { name := "a", primaryKey := false, dtype := DType.scalar "String",
    default := PyVal.none, values := [],
    exprs := [Expr.cast (.col "x") (.scalar "String")],
    derived := false, prepared := true }

/-- A field deriving column `b` from derived column `a`. -/
def fWb : Field :=
  { name := "b", primaryKey := false, dtype := DType.scalar "String",
    default := PyVal.none, values := [],
    exprs := [Expr.cast (.col "a") (.scalar "String")],
    derived := false, prepared := true }

/-- A field whose only candidate needs a column that never appears. -/
def fWc : Field :=
  { name := "c", primaryKey := false, dtype := DType.scalar "String",
    default := PyVal.str "none", values := [],
    exprs := [Expr.cast (.col "zz") (.scalar "String")],
    derived := false, prepared := true }

/-- A field for `p` whose only candidate needs column `q`. -/
def fWp : Field :=
  { name := "p", primaryKey := false, dtype := DType.scalar "Int64",
    default := PyVal.none, values := [],
    exprs := [Expr.cast (.col "q") (.scalar "Int64")],
    derived := false, prepared := true }

/-- A field for `q` whose only candidate needs column `p`. -/
def fWq : Field :=
  { name := "q", primaryKey := false, dtype := DType.scalar "Int64",
    default := PyVal.int 7, values := [],
    exprs := [Expr.cast (.col "p") (.scalar "Int64")],
    derived := false, prepared := true }

/-- An input frame with one source column `x` and two rows. -/
def ldfW : LF := ⟨[("x", DType.scalar "Int64")], 2⟩

/-- An input frame with one unrelated column `s` and three rows. -/
def ldfWs : LF := ⟨[("s", DType.scalar "Int64")], 3⟩

/-- A field with two candidates, both satisfiable from `s1`/`s2`. -/
def fW3 : Field :=
  { name := "e", primaryKey := false, dtype := DType.scalar "String",
    default := PyVal.none, values := [],
    exprs := [Expr.cast (.col "s1") (.scalar "String"),
              Expr.cast (.col "s2") (.scalar "String")],
    derived := false, prepared := true }

/-- A one-field model for the empty-input law. -/
def mfX : MField :=
  { name := "x", dtype := DType.scalar "Int64", default := PyVal.none,
    expressions := [Expr.cast (.col "x") (.scalar "Int64")],
    primaryKey := false }

/-- A second field for the empty-input law. -/
def mfY : MField :=
  { name := "y", dtype := DType.scalar "String", default := PyVal.none,
    expressions := [Expr.cast (.col "src") (.scalar "String")],
    primaryKey := false }

/-- `True` exactly for a `fill_null`-wrapped expression. -/
def isWrapped : Expr → Bool
  | .fillNull _ _ => true
  | _ => false

/-! ## C1: empty-input special case of `TadpoleBase.derive` -/

theorem foldl_upsert_modelSchema (fields : List MField) :
    ∀ acc : Schema, (∀ f ∈ fields, ∀ p ∈ acc, p.1 ≠ f.name) →
      (fields.map MField.name).Nodup →
      fields.foldl (fun acc f => upsertCol acc f.name f.dtype) acc
        = acc ++ fields.map (fun f => (f.name, f.dtype)) := by
  induction fields with
  | nil => intro acc _ _; simp
  | cons f fs ih =>
      intro acc hacc hnd
      rw [List.foldl_cons]
      have hnotany : ¬ acc.any (fun p => p.1 = f.name) = true := by
        simp only [List.any_eq_true, decide_eq_true_eq, not_exists]
        intro p
        rw [not_and]
        intro hp
        exact hacc f (List.mem_cons_self f fs) p hp
      have hup : upsertCol acc f.name f.dtype = acc ++ [(f.name, f.dtype)] := by
        unfold upsertCol
        rw [if_neg hnotany]
      simp only [List.map_cons, List.nodup_cons] at hnd
      rw [hup, ih (acc ++ [(f.name, f.dtype)]) ?_ hnd.2]
      · simp
      · intro g hg p hp
        rcases List.mem_append.1 hp with h1 | h2
        · exact hacc g (List.mem_cons_of_mem f hg) p h1
        · have hpp : p = (f.name, f.dtype) := by simpa using h2
          rw [hpp]
          intro hcne
          apply hnd.1
          rw [show f.name = g.name from hcne]
          exact List.mem_map_of_mem MField.name hg

theorem modelSchema_of_nodup (fields : List MField)
    (h : (fields.map MField.name).Nodup) :
    modelSchema fields = fields.map (fun f => (f.name, f.dtype)) := by
  unfold modelSchema
  simpa using foldl_upsert_modelSchema fields [] (by simp) h

/-- C1: for every Model, deriving against a dataset with zero rows and zero
columns executes no derivation round (the batch trace is empty, so no
candidate is evaluated) and returns a zero-row dataset whose schema is
exactly the mapping from each field's name to its declared dtype. -/
theorem derive_empty_input (fields : List MField) (iterMax : Nat) (lf : LF)
    (h : lf = ⟨[], 0⟩) :
    derive lf fields iterMax = ([], .ok ⟨modelSchema fields, 0⟩)
    ∧ ((fields.map MField.name).Nodup →
        modelSchema fields = fields.map (fun f => (f.name, f.dtype))) := by
  subst h
  exact ⟨rfl, modelSchema_of_nodup fields⟩

/-- Witness for C1 at a concrete two-field model. -/
theorem derive_empty_input_witness :
    derive ⟨[], 0⟩ [mfX, mfY] ITER_MAX = ([], .ok ⟨modelSchema [mfX, mfY], 0⟩)
    ∧ modelSchema [mfX, mfY]
        = [("x", DType.scalar "Int64"), ("y", DType.scalar "String")] := by
  have h := derive_empty_input [mfX, mfY] ITER_MAX ⟨[], 0⟩ rfl
  refine ⟨h.1, ?_⟩
  rw [h.2 (by decide)]
  decide

/-! ## C3: first satisfiable candidate wins -/

theorem find?_eq_get_of_first {α : Type} (p : α → Bool) :
    ∀ (l : List α) (i : Nat) (hi : i < l.length),
      p (l.get ⟨i, hi⟩) = true →
      (∀ j (hj : j < i), p (l.get ⟨j, Nat.lt_trans hj hi⟩) = false) →
      l.find? p = some (l.get ⟨i, hi⟩) := by
  intro l
  induction l with
  | nil => intro i hi; simp at hi
  | cons a l ih =>
      intro i hi hp hfirst
      cases i with
      | zero => exact List.find?_cons_of_pos _ hp
      | succ i =>
          have ha : ¬ p a = true := by
            have h0 := hfirst 0 (Nat.succ_pos i)
            simp only [List.get] at h0
            simp [h0]
          rw [List.find?_cons_of_neg _ ha]
          exact ih i (Nat.lt_of_succ_lt_succ hi) hp
            (fun j hj => hfirst (j + 1) (Nat.succ_lt_succ hj))

/-- C3: `Field.get_expr` selects the first candidate (in declaration order)
whose full root set is contained in the available columns; all earlier
candidates being unsatisfiable and the `i`-th satisfiable, the `i`-th is
returned and the field marked derived — later candidates are not consulted. -/
theorem get_expr_first_satisfiable (f : Field) (names : List String) (i : Nat)
    (hi : i < f.exprs.length)
    (hsat : satisfiable (f.exprs.get ⟨i, hi⟩) names = true)
    (hfirst : ∀ j (hj : j < i),
      satisfiable (f.exprs.get ⟨j, Nat.lt_trans hj hi⟩) names = false) :
    f.get_expr names
      = ({ f with derived := true }, some (f.name, f.exprs.get ⟨i, hi⟩)) := by
  unfold Field.get_expr
  rw [find?_eq_get_of_first _ f.exprs i hi hsat hfirst]

/-- Witness for C3: with candidates `[C1, C2]` both satisfiable in the same
round, `C1` is selected. -/
theorem get_expr_first_satisfiable_witness :
    fW3.get_expr ["s1", "s2"]
      = ({ fW3 with derived := true },
         some ("e", Expr.cast (.col "s1") (.scalar "String"))) := by
  have h := get_expr_first_satisfiable fW3 ["s1", "s2"] 0 (by decide) (by decide)
    (fun j hj => absurd hj (Nat.not_lt_zero j))
  exact h

/-! ## C6: output projection -/

theorem resetFields_map_name (fields : List Field) :
    (resetFields fields).map Field.name = fields.map Field.name := by
  unfold resetFields
  induction fields with
  | nil => rfl
  | cons f fs ih => simp only [List.map_cons, ih]

theorem leChars_total : ∀ a b : List Char, leChars a b = true ∨ leChars b a = true
  | [], b => by
      left
      rfl
  | a :: t1, [] => by
      right
      rfl
  | c1 :: t1, c2 :: t2 => by
      rcases Nat.lt_trichotomy c1.toNat c2.toNat with hlt | heq | hgt
      · left
        simp [leChars, hlt]
      · rcases leChars_total t1 t2 with h | h
        · left
          simp [leChars, heq, h]
        · right
          simp [leChars, heq, h]
      · right
        simp [leChars, hgt]

theorem leChars_cons_iff (x y : Char) (xs ys : List Char) :
    leChars (x :: xs) (y :: ys) = true
      ↔ x.toNat < y.toNat ∨ (x.toNat = y.toNat ∧ leChars xs ys = true) := by
  simp only [leChars]
  rcases Nat.lt_trichotomy x.toNat y.toNat with hlt | heq | hgt
  · simp [hlt]
  · have h1 : ¬ x.toNat < y.toNat := by omega
    have h2 : ¬ y.toNat < x.toNat := by omega
    simp [h1, h2, heq]
  · have h1 : ¬ x.toNat < y.toNat := by omega
    simp only [if_neg h1, if_pos hgt]
    constructor
    · intro hc
      simp at hc
    · intro hc
      exfalso
      rcases hc with hc | ⟨hce, -⟩ <;> omega

theorem leChars_trans : ∀ a b c : List Char,
    leChars a b = true → leChars b c = true → leChars a c = true
  | [], _, _ => by
      intro _ _
      rfl
  | x :: xs, [], _ => by
      intro h _
      simp [leChars] at h
  | x :: xs, y :: ys, [] => by
      intro _ h
      simp [leChars] at h
  | x :: xs, y :: ys, z :: zs => by
      intro h1 h2
      rw [leChars_cons_iff] at h1 h2 ⊢
      rcases h1 with h1 | ⟨h1e, h1r⟩ <;> rcases h2 with h2 | ⟨h2e, h2r⟩
      · left
        omega
      · left
        omega
      · left
        omega
      · right
        exact ⟨by omega, leChars_trans xs ys zs h1r h2r⟩

instance : IsTotal String (fun a b => strLe a b = true) :=
  ⟨fun a b => leChars_total a.data b.data⟩

instance : IsTrans String (fun a b => strLe a b = true) :=
  ⟨fun a b c => leChars_trans a.data b.data c.data⟩

/-- C6: whenever `transform` succeeds, the output columns are exactly the
Model's field names sorted lexicographically ascending (`String`'s linear
order is lexicographic), every other column having been dropped by the
final projection. -/
theorem transform_output_columns (ldf : LF) (fields : List Field)
    (maxIter : Nat) (lfRes : LF)
    (h : transform ldf fields maxIter = .ok lfRes) :
    lfRes.columns = sortStrings (fields.map Field.name)
    ∧ List.Sorted (fun a b : String => strLe a b = true) lfRes.columns
    ∧ lfRes.columns.Perm (fields.map Field.name) := by
  unfold transform at h
  rcases hr : (transformLoop maxIter (maxIter + 2) 0 ldf (resetFields fields)
      ldf.columns).2 with e | pr
  · rw [hr] at h
    simp at h
  · obtain ⟨ldf', fields'⟩ := pr
    rw [hr] at h
    simp only [Except.ok.injEq] at h
    have hnames : fields'.map Field.name = fields.map Field.name := by
      rw [transformLoop_ok_names maxIter (maxIter + 2) 0 ldf (resetFields fields)
        ldf.columns ldf' fields' hr]
      exact resetFields_map_name fields
    rw [← h, LF.columns_select, hnames]
    unfold sortStrings
    exact ⟨rfl, List.sorted_insertionSort _ _, List.perm_insertionSort _ _⟩

/-- Witness for C6 at a concrete run: field list `[c, a]`, output columns
`[a, c]`. -/
theorem transform_output_columns_witness :
    (LF.mk [("a", DType.scalar "String"), ("c", DType.scalar "String")] 2).columns
        = sortStrings ([fWc, fWa].map Field.name)
    ∧ List.Sorted (fun a b : String => strLe a b = true)
        (LF.mk [("a", DType.scalar "String"), ("c", DType.scalar "String")] 2).columns
    ∧ (LF.mk [("a", DType.scalar "String"), ("c", DType.scalar "String")] 2).columns.Perm
        ([fWc, fWa].map Field.name) :=
  transform_output_columns ldfW [fWc, fWa] ITER_MAX
    (LF.mk [("a", DType.scalar "String"), ("c", DType.scalar "String")] 2) (by decide)

/-! ## C2: round batching -/

/-- C2: in every executed round `i` of the fixed-point loop, the selected
batch is computed by `get_exprs` from the schema names as they stood at
the start of round `i` (so no column produced within round `i` influences
any root check of round `i`), and the name of every column the batch
produces is present in the schema names at the start of round `i + 1` —
visible from the next round onward. -/
theorem transform_round_batching (ldf : LF) (fields : List Field)
    (maxIter : Nat) (i : Nat)
    (hi : i < (transformTrace ldf fields maxIter).length) :
    ((transformTrace ldf fields maxIter).get ⟨i, hi⟩).batch
        = (get_exprs ((transformTrace ldf fields maxIter).get ⟨i, hi⟩).fields
            ((transformTrace ldf fields maxIter).get ⟨i, hi⟩).names).2
    ∧ ∀ hj : i + 1 < (transformTrace ldf fields maxIter).length,
        ((transformTrace ldf fields maxIter).get ⟨i + 1, hj⟩).names
          = updNames ((transformTrace ldf fields maxIter).get ⟨i, hi⟩).names
              ((((transformTrace ldf fields maxIter).get ⟨i, hi⟩).batch).map Prod.fst)
        ∧ ∀ w ∈ (((transformTrace ldf fields maxIter).get ⟨i, hi⟩).batch).map Prod.fst,
            w ∈ ((transformTrace ldf fields maxIter).get ⟨i + 1, hj⟩).names := by
  have hok := transformLoop_TraceOK maxIter (maxIter + 2) 0 ldf
    (resetFields fields) ldf.columns
  refine ⟨traceOK_batch _ _ hok i hi, ?_⟩
  intro hj
  have hch := traceOK_chain
    (transformLoop maxIter (maxIter + 2) 0 ldf (resetFields fields) ldf.columns).1
    (resetFields fields, ldf.columns) hok i hi hj
  refine ⟨hch.2, ?_⟩
  intro w hw
  have hx : w ∈ updNames
      (((transformLoop maxIter (maxIter + 2) 0 ldf (resetFields fields)
        ldf.columns).1.get ⟨i, hi⟩).names)
      (((transformLoop maxIter (maxIter + 2) 0 ldf (resetFields fields)
        ldf.columns).1.get ⟨i, hi⟩).batch.map Prod.fst) :=
    mem_updNames_right _ _ w hw
  rw [← hch.2] at hx
  exact hx

/-- Witness for C2 at a concrete two-round run (`a` from `x`, then `b`
from `a`): round 0's batch is selected from round 0's names, and the
column `a` produced in round 0 appears in round 1's names. -/
theorem transform_round_batching_witness :
    ((transformTrace ldfW [fWa, fWb] ITER_MAX).get ⟨0, by decide⟩).batch
        = (get_exprs ((transformTrace ldfW [fWa, fWb] ITER_MAX).get ⟨0, by decide⟩).fields
            ((transformTrace ldfW [fWa, fWb] ITER_MAX).get ⟨0, by decide⟩).names).2
    ∧ "a" ∈ ((transformTrace ldfW [fWa, fWb] ITER_MAX).get ⟨1, by decide⟩).names := by
  have h := transform_round_batching ldfW [fWa, fWb] ITER_MAX 0 (by decide)
  exact ⟨h.1, ((h.2 (by decide)).2 "a" (by decide))⟩

/-! ## C5: the iteration-cap timeout error -/

/-- C5: `transform` fails with the timeout error if and only if every round
`k ≤ max_iterations` still selects a non-empty batch of satisfiable
candidates (the loop never stabilizes within the cap); the error then
names exactly the fields still unresolved after those rounds.  In
particular the error is never raised on the no-progress termination path,
where some round at or below the cap selects nothing. -/
theorem transform_timeout_error (ldf : LF) (fields : List Field) (maxIter : Nat) :
    ((∃ e, transform ldf fields maxIter = .error e)
      ↔ ∀ k, k ≤ maxIter → batchAt (resetFields fields, ldf.columns) k ≠ [])
    ∧ ∀ e, transform ldf fields maxIter = .error e →
        e.unresolved = underivedNames
          ((roundState (resetFields fields, ldf.columns) (maxIter + 1)).1) := by
  have hmain := transformLoop_error_iff maxIter (maxIter + 2) 0 ldf
    (resetFields fields) ldf.columns (by omega)
  have hconn : ∀ e, transform ldf fields maxIter = .error e
      ↔ (transformLoop maxIter (maxIter + 2) 0 ldf (resetFields fields)
          ldf.columns).2 = .error e := by
    intro e
    unfold transform
    rcases hr : (transformLoop maxIter (maxIter + 2) 0 ldf (resetFields fields)
        ldf.columns).2 with e2 | pr
    · simp
    · obtain ⟨ldf', fields'⟩ := pr
      simp
  constructor
  · rw [exists_congr hconn, hmain.1]
    constructor
    · intro hall k hk
      exact hall k (by omega)
    · intro hall k hk
      exact hall k (by omega)
  · intro e he
    have hval := hmain.2 e ((hconn e).1 he)
    rw [hval]
    rfl

/-- Witness for C5: with the cap set to 0, the two-round chain `a → b`
exceeds the cap and fails with the error naming the unresolved field. -/
theorem transform_timeout_error_witness :
    ∃ e, transform ldfW [fWa, fWb] 0 = .error e
      ∧ e.unresolved = underivedNames
          ((roundState (resetFields [fWa, fWb], ldfW.columns) 1).1) := by
  have h := transform_timeout_error ldfW [fWa, fWb] 0
  obtain ⟨e, he⟩ := h.1.mpr (by
    intro k hk
    have hk0 : k = 0 := Nat.le_zero.mp hk
    subst hk0
    decide)
  exact ⟨e, he, h.2 e he⟩

/-! ## C4: silent default fallback on the no-progress path -/

theorem map_fst_map_pair (l : List Field) (g : Field → Expr) :
    (l.map (fun f => (f.name, g f))).map Prod.fst = l.map Field.name := by
  induction l with
  | nil => rfl
  | cons f fs ih => simp only [List.map_cons, ih]

/-- C4: whenever the fixed-point loop terminates without error (in
particular when a round resolves nothing, as with a circular dependency),
`transform` succeeds: every still-underived field is assigned the literal
`lit(default).cast(dtype)` — for a field with no default this is a typed
null column — and, for distinct field names, the output carries each
underived field's name at its declared dtype; the row count is unchanged. -/
theorem transform_no_progress_defaults (ldf : LF) (fields : List Field)
    (maxIter : Nat) (ldf' : LF) (fields' : List Field)
    (hnd : (fields.map Field.name).Nodup)
    (h : (transformLoop maxIter (maxIter + 2) 0 ldf (resetFields fields)
        ldf.columns).2 = .ok (ldf', fields')) :
    ∃ lfRes,
      transform ldf fields maxIter = .ok lfRes
      ∧ lfRes = (ldf'.withColumns ((fields'.filter (fun f => !f.derived)).map
          (fun f => (f.name, Expr.cast (.lit f.default) f.dtype)))).select
          (sortStrings (fields'.map Field.name))
      ∧ lfRes.rows = ldf.rows
      ∧ ∀ f ∈ fields', f.derived = false → lfRes.typeOf f.name = f.dtype := by
  have htr : transform ldf fields maxIter
      = .ok ((ldf'.withColumns ((fields'.filter (fun f => !f.derived)).map
          (fun f => (f.name, Field.literal f)))).select
          (sortStrings (fields'.map Field.name))) := by
    unfold transform
    rw [h]
  refine ⟨_, htr, rfl, ?_, ?_⟩
  · show ((ldf'.withColumns _).select _).rows = ldf.rows
    rw [LF.rows_select, LF.rows_withColumns]
    exact transformLoop_ok_rows maxIter (maxIter + 2) 0 ldf (resetFields fields)
      ldf.columns ldf' fields' h
  · intro f hf hder
    have hnames : fields'.map Field.name = fields.map Field.name := by
      rw [transformLoop_ok_names maxIter (maxIter + 2) 0 ldf (resetFields fields)
        ldf.columns ldf' fields' h]
      exact resetFields_map_name fields
    have hmm : f.name ∈ sortStrings (fields'.map Field.name) := by
      unfold sortStrings
      exact (List.mem_insertionSort _).mpr (List.mem_map_of_mem Field.name hf)
    rw [show ((ldf'.withColumns ((fields'.filter (fun f => !f.derived)).map
        (fun f => (f.name, Field.literal f)))).select
        (sortStrings (fields'.map Field.name))).typeOf f.name
      = if f.name ∈ sortStrings (fields'.map Field.name) then
          (ldf'.withColumns ((fields'.filter (fun f => !f.derived)).map
            (fun f => (f.name, Field.literal f)))).typeOf f.name
        else .scalar "Unknown"
      from LF.typeOf_select _ _ _]
    rw [if_pos hmm]
    have hmem : (f.name, Field.literal f)
        ∈ (fields'.filter (fun f => !f.derived)).map
          (fun f => (f.name, Field.literal f)) :=
      List.mem_map_of_mem _ (List.mem_filter.mpr ⟨hf, by simp [hder]⟩)
    have hbnd : (((fields'.filter (fun f => !f.derived)).map
        (fun f => (f.name, Field.literal f))).map Prod.fst).Nodup := by
      rw [map_fst_map_pair]
      have hsub : List.Sublist
          ((fields'.filter (fun f => !f.derived)).map Field.name)
          (fields'.map Field.name) :=
        List.Sublist.map Field.name (List.filter_sublist fields')
      exact (hnames ▸ hnd : (fields'.map Field.name).Nodup).sublist hsub
    rw [LF.typeOf_withColumns_mem _ _ _ _ hmem hbnd]
    rfl

/-- Witness for C4 at the circular pair `p ↔ q`: the loop makes no progress
in round 0, no error is raised, and both fields come back typed at their
declared dtype with rows preserved. -/
theorem transform_no_progress_defaults_witness :
    ∃ lfRes, transform ldfWs [fWp, fWq] ITER_MAX = .ok lfRes
      ∧ lfRes.typeOf "p" = DType.scalar "Int64"
      ∧ lfRes.typeOf "q" = DType.scalar "Int64"
      ∧ lfRes.rows = 3 := by
  obtain ⟨lfRes, h1, -, h3, h4⟩ := transform_no_progress_defaults ldfWs [fWp, fWq]
    ITER_MAX ldfWs (resetFields [fWp, fWq]) (by decide) (by decide)
  refine ⟨lfRes, h1, ?_, ?_, ?_⟩
  · exact h4 fWp (by decide) (by decide)
  · exact h4 fWq (by decide) (by decide)
  · rw [h3]
    rfl

/-! ## C7: reconciling append -/

theorem mem_unionNames (a b : List String) (c : String) :
    c ∈ unionNames a b ↔ c ∈ a ∨ c ∈ b := by
  unfold unionNames
  rw [List.mem_append]
  constructor
  · rintro (h | h)
    · exact Or.inl h
    · exact Or.inr (List.mem_filter.1 h).1
  · rintro (h | h)
    · exact Or.inl h
    · by_cases ha : c ∈ a
      · exact Or.inl ha
      · refine Or.inr (List.mem_filter.2 ⟨h, ?_⟩)
        simpa using ha

theorem appendLF_columns (A B : LF) :
    (appendLF A B).columns = unionNames A.columns B.columns :=
  LF.columns_select _ _

theorem map_fst_map_pair_str (l : List String) (g : String → Expr) :
    (l.map (fun c => (c, g c))).map Prod.fst = l := by
  induction l with
  | nil => rfl
  | cons c cs ih => simp only [List.map_cons, ih]

theorem unionNames_filter_not_left (a b : List String) :
    (unionNames a b).filter (fun c => !a.contains c)
      = b.filter (fun c => !a.contains c) := by
  unfold unionNames
  rw [List.filter_append]
  have h1 : a.filter (fun c => !a.contains c) = [] := by
    rw [List.filter_eq_nil_iff]
    intro c hc
    simp [hc]
  have h2 : (b.filter (fun c => !a.contains c)).filter (fun c => !a.contains c)
      = b.filter (fun c => !a.contains c) := by
    rw [List.filter_filter]
    simp
  rw [h1, h2, List.nil_append]

/-- C7: the reconciling append produces the set union of the two schemas —
each frame padded with null columns cast to the type the other frame
declares — with no row dropped: the row count is the sum of the inputs'
row counts; a column present in the left frame keeps the left type, a
column only the right frame has carries the right frame's declared type. -/
theorem appendLF_reconciles (A B : LF) (hB : B.columns.Nodup) :
    (appendLF A B).rows = A.rows + B.rows
    ∧ (∀ c, c ∈ (appendLF A B).columns ↔ c ∈ A.columns ∨ c ∈ B.columns)
    ∧ (∀ c, c ∈ A.columns → (appendLF A B).typeOf c = A.typeOf c)
    ∧ (∀ c, c ∉ A.columns → c ∈ B.columns →
        (appendLF A B).typeOf c = B.typeOf c) := by
  refine ⟨rfl, ?_, ?_, ?_⟩
  · intro c
    rw [appendLF_columns]
    exact mem_unionNames _ _ c
  · intro c hc
    have hmem : c ∈ unionNames A.columns B.columns :=
      (mem_unionNames _ _ c).2 (Or.inl hc)
    show ((A.withColumns (((unionNames A.columns B.columns).filter
        (fun x => !A.columns.contains x)).map
        (fun x => (x, Expr.cast (.lit .none) (B.typeOf x))))).select
        (unionNames A.columns B.columns)).typeOf c = A.typeOf c
    rw [LF.typeOf_select, if_pos hmem]
    apply LF.typeOf_withColumns_skip
    intro p hp
    rcases List.mem_map.1 hp with ⟨x, hx, rfl⟩
    have hxa : x ∉ A.columns := by
      have := (List.mem_filter.1 hx).2
      simpa using this
    intro hxc
    apply hxa
    rw [show x = c from hxc]
    exact hc
  · intro c hcA hcB
    have hmem : c ∈ unionNames A.columns B.columns :=
      (mem_unionNames _ _ c).2 (Or.inr hcB)
    show ((A.withColumns (((unionNames A.columns B.columns).filter
        (fun x => !A.columns.contains x)).map
        (fun x => (x, Expr.cast (.lit .none) (B.typeOf x))))).select
        (unionNames A.columns B.columns)).typeOf c = B.typeOf c
    rw [LF.typeOf_select, if_pos hmem]
    have hcf : c ∈ (unionNames A.columns B.columns).filter
        (fun x => !A.columns.contains x) :=
      List.mem_filter.2 ⟨hmem, by simpa using hcA⟩
    have hmemb : (c, Expr.cast (.lit .none) (B.typeOf c))
        ∈ ((unionNames A.columns B.columns).filter
            (fun x => !A.columns.contains x)).map
          (fun x => (x, Expr.cast (.lit .none) (B.typeOf x))) :=
      List.mem_map_of_mem _ hcf
    have hbnd : ((((unionNames A.columns B.columns).filter
        (fun x => !A.columns.contains x)).map
        (fun x => (x, Expr.cast (.lit .none) (B.typeOf x)))).map Prod.fst).Nodup := by
      rw [map_fst_map_pair_str, unionNames_filter_not_left]
      exact hB.filter _
    rw [LF.typeOf_withColumns_mem _ _ _ _ hmemb hbnd]
    rfl

/-- Witness for C7 at two small frames with overlapping columns. -/
theorem appendLF_reconciles_witness :
    (appendLF ⟨[("a", DType.scalar "Int64"), ("k", DType.scalar "String")], 2⟩
        ⟨[("k", DType.scalar "String"), ("b", DType.scalar "Boolean")], 3⟩).rows
      = 2 + 3
    ∧ ("b" ∈ (appendLF ⟨[("a", DType.scalar "Int64"), ("k", DType.scalar "String")], 2⟩
        ⟨[("k", DType.scalar "String"), ("b", DType.scalar "Boolean")], 3⟩).columns
        ↔ "b" ∈ ["a", "k"] ∨ "b" ∈ ["k", "b"])
    ∧ (appendLF ⟨[("a", DType.scalar "Int64"), ("k", DType.scalar "String")], 2⟩
        ⟨[("k", DType.scalar "String"), ("b", DType.scalar "Boolean")], 3⟩).typeOf "a"
      = DType.scalar "Int64"
    ∧ (appendLF ⟨[("a", DType.scalar "Int64"), ("k", DType.scalar "String")], 2⟩
        ⟨[("k", DType.scalar "String"), ("b", DType.scalar "Boolean")], 3⟩).typeOf "b"
      = DType.scalar "Boolean" := by
  have h := appendLF_reconciles
    ⟨[("a", DType.scalar "Int64"), ("k", DType.scalar "String")], 2⟩
    ⟨[("k", DType.scalar "String"), ("b", DType.scalar "Boolean")], 3⟩ (by decide)
  exact ⟨h.1, h.2.1 "b", h.2.2.1 "a" (by decide), h.2.2.2 "b" (by decide) (by decide)⟩

/-! ## C8: field inheritance order and override -/

/-- Parent field `p`. -/
def fP8 : Field :=
  { name := "p", primaryKey := false, dtype := DType.scalar "Int64",
    default := PyVal.none, values := [], exprs := [], derived := false,
    prepared := true }

/-- Parent's definition of field `a`. -/
def fA8old : Field :=
  { name := "a", primaryKey := false, dtype := DType.scalar "Int64",
    default := PyVal.none, values := [], exprs := [], derived := false,
    prepared := true }

/-- Child's overriding definition of field `a`. -/
def fA8new : Field :=
  { name := "a", primaryKey := false, dtype := DType.scalar "String",
    default := PyVal.none, values := [], exprs := [], derived := false,
    prepared := true }

/-- Child-only field `b`. -/
def fB8 : Field :=
  { name := "b", primaryKey := false, dtype := DType.scalar "Boolean",
    default := PyVal.none, values := [], exprs := [], derived := false,
    prepared := true }

/-- Counterexample to C8 as stated: with parent fields `[p, a]` and child
fields `[a, b]`, the code's field list is `[p, a, b]` — the inherited
names come first (the child's `a` replacing the parent's in place) —
whereas the claim predicts the child-first order `[a, b, p]`. -/
theorem modelFields_order_counterexample :
    (modelFields [fP8, fA8old] [fA8new, fB8]).map Field.name = ["p", "a", "b"]
    ∧ (claimedModelFields [fP8, fA8old] [fA8new, fB8]).map Field.name
        = ["a", "b", "p"]
    ∧ modelFields [fP8, fA8old] [fA8new, fB8]
        ≠ claimedModelFields [fP8, fA8old] [fA8new, fB8] := by
  decide

theorem map_name_replace (acc : List Field) (f : Field) :
    (acc.map (fun g => if g.name = f.name then f else g)).map Field.name
      = acc.map Field.name := by
  induction acc with
  | nil => rfl
  | cons g gs ih =>
      by_cases hgf : g.name = f.name
      · simp only [List.map_cons, ih]
        rw [if_pos hgf, hgf]
      · simp only [List.map_cons, ih, if_neg hgf]

theorem any_name_eq_contains (acc : List Field) (nm : String) :
    acc.any (fun g => g.name = nm) = (acc.map Field.name).contains nm := by
  induction acc with
  | nil => rfl
  | cons g gs ih =>
      by_cases hg : g.name = nm
      · simp [List.any_cons, List.contains_cons, hg, ih]
      · have h2 : ¬ nm = g.name := fun hc => hg hc.symm
        simp [List.any_cons, List.contains_cons, hg, h2, ih]

theorem dictUpsert_map_name (acc : List Field) (f : Field) :
    (dictUpsert acc f).map Field.name
      = if (acc.map Field.name).contains f.name then acc.map Field.name
        else acc.map Field.name ++ [f.name] := by
  unfold dictUpsert
  rw [any_name_eq_contains]
  by_cases h : (acc.map Field.name).contains f.name
  · rw [if_pos h, if_pos h, map_name_replace]
  · rw [if_neg h, if_neg h]
    simp

theorem modelFields_map_name (child : List Field) :
    ∀ base : List Field,
      (modelFields base child).map Field.name
        = updNames (base.map Field.name) (child.map Field.name) := by
  induction child with
  | nil => intro base; rfl
  | cons c cs ih =>
      intro base
      show (modelFields (dictUpsert base c) cs).map Field.name = _
      rw [ih (dictUpsert base c), dictUpsert_map_name]
      unfold updNames
      rw [List.map_cons, List.foldl_cons]

theorem updNames_eq_append (new : List String) :
    ∀ ns : List String, new.Nodup →
      updNames ns new = ns ++ new.filter (fun nm => !ns.contains nm) := by
  induction new with
  | nil => intro ns _; simp [updNames]
  | cons m ms ih =>
      intro ns hnd
      rw [List.nodup_cons] at hnd
      unfold updNames
      rw [List.foldl_cons]
      by_cases h : m ∈ ns
      · rw [if_pos (by simpa using h)]
        have := ih ns hnd.2
        unfold updNames at this
        rw [this, List.filter_cons_of_neg (by simpa using h)]
      · rw [if_neg (by simpa using h)]
        have := ih (ns ++ [m]) hnd.2
        unfold updNames at this
        rw [this, List.filter_cons_of_pos (by simpa using h)]
        have hfil : ms.filter (fun nm => !(ns ++ [m]).contains nm)
            = ms.filter (fun nm => !ns.contains nm) := by
          apply List.filter_congr
          intro x hx
          have hxm : x ≠ m := fun hc => hnd.1 (hc ▸ hx)
          simp [hxm]
        rw [hfil]
        simp

theorem updNames_nodup (ns new : List String) (h1 : ns.Nodup) (h2 : new.Nodup) :
    (updNames ns new).Nodup := by
  rw [updNames_eq_append new ns h2]
  refine List.Nodup.append h1 (h2.filter _) ?_
  intro a ha hb
  have := (List.mem_filter.1 hb).2
  simp only [Bool.not_eq_true'] at this
  exact absurd ha (by simpa using this)

theorem find?_map_replace_other (acc : List Field) (f : Field) (nm : String)
    (h : f.name ≠ nm) :
    (acc.map (fun g => if g.name = f.name then f else g)).find?
        (fun g => g.name = nm)
      = acc.find? (fun g => g.name = nm) := by
  induction acc with
  | nil => rfl
  | cons g gs ih =>
      by_cases hg : g.name = f.name
      · rw [List.map_cons, if_pos hg,
          List.find?_cons_of_neg _ (by simpa using h),
          List.find?_cons_of_neg _ (by simp [hg, h])]
        exact ih
      · rw [List.map_cons, if_neg hg]
        by_cases hgnm : g.name = nm
        · rw [List.find?_cons_of_pos _ (by simpa using hgnm),
            List.find?_cons_of_pos _ (by simpa using hgnm)]
        · rw [List.find?_cons_of_neg _ (by simpa using hgnm),
            List.find?_cons_of_neg _ (by simpa using hgnm)]
          exact ih

theorem find?_dictUpsert_other (acc : List Field) (c : Field) (nm : String)
    (h : c.name ≠ nm) :
    (dictUpsert acc c).find? (fun g => g.name = nm)
      = acc.find? (fun g => g.name = nm) := by
  unfold dictUpsert
  split
  · exact find?_map_replace_other acc c nm h
  · rw [List.find?_append]
    have hone : List.find? (fun g => decide (g.name = nm)) [c] = Option.none := by
      simp [List.find?, h]
    rw [hone]
    cases acc.find? (fun g => decide (g.name = nm)) <;> simp

theorem find?_map_replace_self (acc : List Field) (c : Field)
    (hany : acc.any (fun g => g.name = c.name)) :
    (acc.map (fun g => if g.name = c.name then c else g)).find?
        (fun g => g.name = c.name) = some c := by
  induction acc with
  | nil => simp at hany
  | cons g gs ih =>
      by_cases hg : g.name = c.name
      · rw [List.map_cons, if_pos hg, List.find?_cons_of_pos _ (by simp)]
      · rw [List.map_cons, if_neg hg,
          List.find?_cons_of_neg _ (by simpa using hg)]
        apply ih
        simp only [List.any_cons, Bool.or_eq_true, decide_eq_true_eq] at hany
        rcases hany with hc | hc
        · exact absurd hc hg
        · simpa using hc

theorem find?_dictUpsert_self (acc : List Field) (c : Field) :
    (dictUpsert acc c).find? (fun g => g.name = c.name) = some c := by
  unfold dictUpsert
  split
  · rename_i hany
    exact find?_map_replace_self acc c hany
  · rename_i hany
    rw [List.find?_append]
    have hnone : acc.find? (fun g => decide (g.name = c.name)) = Option.none := by
      rw [List.find?_eq_none]
      intro g hg
      simp only [List.any_eq_true, decide_eq_true_eq] at hany
      simp only [decide_eq_true_eq]
      exact fun hc => hany ⟨g, hg, hc⟩
    simp [hnone, List.find?]

theorem modelFields_find_skip (cs : List Field) :
    ∀ (acc : List Field) (nm : String), (∀ g ∈ cs, g.name ≠ nm) →
      (modelFields acc cs).find? (fun g => g.name = nm)
        = acc.find? (fun g => g.name = nm) := by
  induction cs with
  | nil => intro acc nm _; rfl
  | cons c cs ih =>
      intro acc nm hall
      show (modelFields (dictUpsert acc c) cs).find? _ = _
      rw [ih (dictUpsert acc c) nm (fun g hg => hall g (List.mem_cons_of_mem c hg)),
        find?_dictUpsert_other acc c nm (hall c (List.mem_cons_self c cs))]

theorem nodup_find?_self (l : List Field) (f : Field)
    (hnd : (l.map Field.name).Nodup) (hf : f ∈ l) :
    l.find? (fun g => g.name = f.name) = some f := by
  induction l with
  | nil => exact absurd hf (List.not_mem_nil f)
  | cons g gs ih =>
      simp only [List.map_cons, List.nodup_cons] at hnd
      rcases List.mem_cons.1 hf with hh | ht
      · subst hh
        rw [List.find?_cons_of_pos _ (by simp)]
      · have hgne : g.name ≠ f.name := by
          intro hc
          exact hnd.1 (hc ▸ List.mem_map_of_mem Field.name ht)
        rw [List.find?_cons_of_neg _ (by simpa using hgne)]
        exact ih hnd.2 ht

theorem modelFields_child_wins (child : List Field) :
    ∀ base : List Field, (child.map Field.name).Nodup →
      ∀ f ∈ child,
        (modelFields base child).find? (fun g => g.name = f.name) = some f := by
  induction child with
  | nil => intro base _ f hf; exact absurd hf (List.not_mem_nil f)
  | cons c cs ih =>
      intro base hnd f hf
      simp only [List.map_cons, List.nodup_cons] at hnd
      rcases List.mem_cons.1 hf with hh | ht
      · subst hh
        show (modelFields (dictUpsert base f) cs).find? _ = _
        rw [modelFields_find_skip cs (dictUpsert base f) f.name ?_,
          find?_dictUpsert_self base f]
        intro g hg hc
        exact hnd.1 (hc ▸ List.mem_map_of_mem Field.name hg)
      · exact ih (dictUpsert base c) hnd.2 f ht

/-- C8 amended: the field list of a Model extending another keeps exactly
one Field per name, the child's definition winning for every duplicated
name, but the order is parent-first: the inherited names in parent order
(each overridden name carrying the child's Field at the parent's
position), followed by the child's new names in declaration order — not
the child-first order the claim states. -/
theorem modelFields_amended (base child : List Field)
    (hb : (base.map Field.name).Nodup) (hc : (child.map Field.name).Nodup) :
    (modelFields base child).map Field.name
        = base.map Field.name
          ++ (child.map Field.name).filter
              (fun nm => !(base.map Field.name).contains nm)
    ∧ ((modelFields base child).map Field.name).Nodup
    ∧ (∀ f ∈ child,
        (modelFields base child).find? (fun g => g.name = f.name) = some f)
    ∧ (∀ f ∈ base, f.name ∉ child.map Field.name →
        (modelFields base child).find? (fun g => g.name = f.name) = some f) := by
  refine ⟨?_, ?_, modelFields_child_wins child base hc, ?_⟩
  · rw [modelFields_map_name child base, updNames_eq_append _ _ hc]
  · rw [modelFields_map_name child base]
    exact updNames_nodup _ _ hb hc
  · intro f hf hnotin
    rw [modelFields_find_skip child base f.name ?_, nodup_find?_self base f hb hf]
    intro g hg hc2
    exact hnotin (hc2 ▸ List.mem_map_of_mem Field.name hg)

/-- Witness for the amended C8 at the counterexample's inputs: the names
come out parent-first and the child's overriding definition of `a` is the
one kept. -/
theorem modelFields_amended_witness :
    (modelFields [fP8, fA8old] [fA8new, fB8]).map Field.name
        = [fP8, fA8old].map Field.name
          ++ ([fA8new, fB8].map Field.name).filter
              (fun nm => !([fP8, fA8old].map Field.name).contains nm)
    ∧ (modelFields [fP8, fA8old] [fA8new, fB8]).find?
        (fun g => g.name = fA8new.name) = some fA8new := by
  have h := modelFields_amended [fP8, fA8old] [fA8new, fB8] (by decide) (by decide)
  exact ⟨h.1, h.2.2.1 fA8new (by decide)⟩

/-! ## C9: normalize "unnest-explode" flattens completely -/

theorem normLoopAux_fixpoint (how sep : String) (columns : List String)
    (hf : strContains how "first" = false) :
    ∀ (fuel : Nat) (schema : Schema), schemaSize schema < fuel →
      (get_expandable how (normLoopAux how sep columns fuel schema) columns).1 = []
      ∧ (get_expandable how (normLoopAux how sep columns fuel schema) columns).2
          = [] := by
  intro fuel
  induction fuel with
  | zero =>
      intro schema hs
      exact absurd hs (Nat.not_lt_zero _)
  | succ fuel ih =>
      intro schema hs
      unfold normLoopAux
      by_cases h : (get_expandable how schema columns).1 = []
          ∧ (get_expandable how schema columns).2 = []
      · rw [if_pos h]
        exact h
      · rw [if_neg h, if_neg (by simp [hf])]
        refine ih (normStep how sep columns schema) ?_
        have hd := normStep_decreases how sep columns schema h
        omega

/-- A concretely nested schema: a struct holding a scalar and a list of
structs. -/
def wSchema : Schema :=
  [("s", DType.struct (.cons "a" (.scalar "Int64")
      (.cons "l" (.list (.struct (.cons "z" (.scalar "String") .nil))) .nil)))]

/-- C9: normalization in mode "unnest-explode" (defined here by a
measure-decreasing total function: each pass explodes the remaining list
columns if any, else unnests the struct columns) reaches a fixed point at
which no column's type is a struct or a list. -/
theorem normalize_unnest_explode_flattens (schema : Schema) :
    ∀ nm ∈ (normalize schema "." [] "unnest-explode").map Prod.fst,
      (schemaType (normalize schema "." [] "unnest-explode") nm).isStruct = false
      ∧ (schemaType (normalize schema "." [] "unnest-explode") nm).isList
          = false := by
  intro nm hnm
  have hne : normalize schema "." [] "unnest-explode"
      = normLoopAux "unnest-explode" "." [] (schemaSize schema + 1) schema := rfl
  have hfp := normLoopAux_fixpoint "unnest-explode" "." [] (by decide)
    (schemaSize schema + 1) schema (Nat.lt_succ_self _)
  rw [hne] at hnm ⊢
  obtain ⟨h1, h2⟩ := hfp
  unfold get_expandable at h1 h2
  simp only [ne_eq, not_true_eq_false, if_false, reduceIte] at h1 h2
  rw [if_pos (show strContains "unnest-explode" "unnest" = true by decide)] at h1
  rw [if_pos (show strContains "unnest-explode" "explode" = true by decide)] at h2
  constructor
  · have := List.filter_eq_nil_iff.mp h1 nm hnm
    simpa using this
  · have := List.filter_eq_nil_iff.mp h2 nm hnm
    simpa using this

/-- Witness for C9 at a concrete nested schema (struct containing a list
of structs): the flattened column `s.a` is neither struct- nor
list-typed. -/
theorem normalize_unnest_explode_flattens_witness :
    (schemaType (normalize wSchema "." [] "unnest-explode") "s.a").isStruct = false
    ∧ (schemaType (normalize wSchema "." [] "unnest-explode") "s.a").isList
        = false :=
  normalize_unnest_explode_flattens wSchema "s.a" (by decide)

/-! ## C10: fill_null wrapping of candidates -/

/-- A Field declared with default None whose candidates are an expression
followed by a plain value. -/
def cF10 : Field :=
  { name := "x", primaryKey := false, dtype := DType.scalar "Int64",
    default := PyVal.none,
    values := [FieldValue.expr (.col "s"), FieldValue.val (.int 5)],
    exprs := [], derived := false, prepared := false }

/-- The result of preparing `cF10`. -/
def cF10res : Field :=
  { name := "x", primaryKey := false, dtype := DType.scalar "Int64",
    default := PyVal.int 5,
    values := [FieldValue.expr (.col "s"), FieldValue.val (.int 5)],
    exprs := [Expr.cast (.col "s") (.scalar "Int64"),
              Expr.fillNull (Expr.cast (.col "x") (.scalar "Int64")) (.int 5)],
    derived := false, prepared := true }

/-- Counterexample to C10 as stated: a Field whose declared default is
falsy (None) but whose second candidate is the plain value 5.  Binding
mutates the default mid-prepare: the first candidate is bound unwrapped
while the second is wrapped in `fill_null(5)` — so neither "falsy default
means no candidate is wrapped" (the declared default reading) nor "truthy
default means every candidate is wrapped" (the final default reading, the
final default being the truthy 5) holds. -/
theorem prepare_fill_null_counterexample :
    cF10.default.truthy = false
    ∧ Field.prepare cF10 = .ok cF10res
    ∧ cF10res.default.truthy = true
    ∧ cF10res.exprs.map isWrapped = [false, true] := by
  decide

theorem prepareVals_all_exprs (vs : List FieldValue) :
    ∀ g : Field, (∀ v ∈ vs, ∃ e, v = FieldValue.expr e) →
      (prepareVals g vs).1 = g
      ∧ (prepareVals g vs).2.length = vs.length
      ∧ ∀ e ∈ (prepareVals g vs).2, ∃ e0,
          e = if g.default.truthy then
                Expr.fillNull (Expr.cast e0 g.dtype) g.default
              else Expr.cast e0 g.dtype := by
  induction vs with
  | nil =>
      intro g _
      exact ⟨rfl, rfl, fun e he => absurd he (List.not_mem_nil e)⟩
  | cons v vs ih =>
      intro g hall
      obtain ⟨e0, rfl⟩ := hall v (List.mem_cons_self v vs)
      have hrec := ih g (fun w hw => hall w (List.mem_cons_of_mem _ hw))
      refine ⟨?_, ?_, ?_⟩
      · show (prepareVals g vs).1 = g
        exact hrec.1
      · show (prepareVals g vs).2.length + 1 = vs.length + 1
        rw [hrec.2.1]
      · intro e he
        rcases List.mem_cons.1 he with hh | ht
        · exact ⟨root_replace e0 PLACEHOLDER g.name, hh⟩
        · exact hrec.2.2 e ht

/-- C10 amended: the `fill_null` wrapping is decided per candidate by the
default in effect when that candidate is bound, and a non-expression
candidate overwrites the default with itself before its own wrapping
decision (witnessed by the counterexample).  For a Field all of whose
candidates are expressions the default never changes during prepare, and
the claim's dichotomy holds: a truthy default wraps every bound candidate
in `fill_null(default)` after the cast to the declared dtype, a falsy
default (None, 0, empty string, False) wraps none. -/
theorem prepare_fill_null_amended (f : Field) (hname : f.name ≠ "")
    (hvals : ∀ v ∈ f.values, ∃ e, v = FieldValue.expr e) :
    ∃ fr, f.prepare = .ok fr
      ∧ fr.default = f.default
      ∧ fr.exprs.length = f.values.length
      ∧ (f.default.truthy = true →
          ∀ e ∈ fr.exprs, ∃ e0,
            e = Expr.fillNull (Expr.cast e0 f.dtype) f.default)
      ∧ (f.default.truthy = false →
          ∀ e ∈ fr.exprs, ∃ e0, e = Expr.cast e0 f.dtype) := by
  have hp := prepareVals_all_exprs f.values { f with exprs := [] } hvals
  unfold Field.prepare
  rw [if_neg hname]
  refine ⟨_, rfl, ?_, ?_, ?_, ?_⟩
  · show ((prepareVals { f with exprs := [] } f.values).1).default = f.default
    rw [hp.1]
  · show ((prepareVals { f with exprs := [] } f.values).2).length = f.values.length
    exact hp.2.1
  · intro htr e he
    obtain ⟨e0, heq⟩ := hp.2.2 e he
    refine ⟨e0, ?_⟩
    rw [heq, if_pos htr]
  · intro hfa e he
    obtain ⟨e0, heq⟩ := hp.2.2 e he
    refine ⟨e0, ?_⟩
    rw [heq, if_neg (by simp [hfa])]

/-- An all-expression Field with a truthy default. -/
def wF10 : Field :=
  { name := "v", primaryKey := false, dtype := DType.scalar "String",
    default := PyVal.str "Action",
    values := [FieldValue.expr (.col "m")],
    exprs := [], derived := false, prepared := false }

/-- Witness for the amended C10: an all-expression Field with truthy
default "Action" gets every candidate wrapped. -/
theorem prepare_fill_null_amended_witness :
    wF10.default.truthy = true
    ∧ ∃ fr, wF10.prepare = .ok fr
        ∧ ∀ e ∈ fr.exprs, ∃ e0,
            e = Expr.fillNull (Expr.cast e0 wF10.dtype) wF10.default := by
  refine ⟨by decide, ?_⟩
  obtain ⟨fr, h1, -, -, ht, -⟩ := prepare_fill_null_amended wF10 (by decide)
    (by
      intro v hv
      have hv2 : v = FieldValue.expr (.col "m") := by
        simpa [wF10] using hv
      exact ⟨_, hv2⟩)
  exact ⟨fr, h1, ht (by decide)⟩

end Tadpoles
